/-
Verification of the DarijaNormalizer repository (src/DarijaNormalizer.js).

The source exports one lookup table, ARABIC_CHAT_MAP, and one function,
normalizeDarija, which rewrites Arabic chat alphabet (Arabizi) text into
Arabic script: lowercase the input, replace every multi-character table key
(length > 1, sorted by length descending) by its value, then every
single-character key, then collapse whitespace runs and trim.

This file embeds the table and the function over List Char (JavaScript
strings become lists of characters; the regular expression based global
replacement becomes an explicit literal left-to-right non-overlapping
substring replacement, which is what the source regexes denote since no
table key contains a regex metacharacter) and proves the specification
claims about them.
-/
import Mathlib

set_option autoImplicit false

/-- Whitespace test matching the JavaScript regular expression class \s on
line 80 of the source, which is also the character set removed by
String.prototype.trim. -/
def isWsB (c : Char) : Bool :=
  c.toNat = 32 || c.toNat = 9 || c.toNat = 10 || c.toNat = 11 || c.toNat = 12 ||
  c.toNat = 13 || c.toNat = 160 || c.toNat = 5760 ||
  (8192 ≤ c.toNat && c.toNat ≤ 8202) || c.toNat = 8232 || c.toNat = 8233 ||
  c.toNat = 8239 || c.toNat = 8287 || c.toNat = 12288 || c.toNat = 65279

/-- One-character lower casing, modelling String.prototype.toLowerCase
(source line 54) on the ASCII range, the only range the table keys use. -/
def lowerChar (c : Char) : Char :=
  if 65 ≤ c.toNat && c.toNat ≤ 90 then Char.ofNat (c.toNat + 32) else c

/-- The ARABIC_CHAT_MAP object literal (source lines 8 to 40), as an
association list in source textual order; keys and values are character
lists. -/
def ARABIC_CHAT_MAP : List (List Char × List Char) :=
  [ (['3'], ['ع']),
    (['7'], ['ح']),
    (['9'], ['ق']),
    (['2'], ['ء']),
    (['5'], ['خ']),
    (['6'], ['ط']),
    (['8'], ['غ']),
    (['d', 'h'], ['ذ']),
    (['d', '7'], ['ظ']),
    (['s', 'h'], ['ش']),
    (['s', '5'], ['ص']),
    (['s', '9'], ['ص']),
    (['d', '9'], ['ض']),
    (['z', '7'], ['ز']) ]

/-- The same entries in the order Object.keys enumerates them: JavaScript
puts integer-like keys first in ascending numeric order, then the remaining
string keys in insertion order. -/
def objectEntries : List (List Char × List Char) :=
  [ (['2'], ['ء']),
    (['3'], ['ع']),
    (['5'], ['خ']),
    (['6'], ['ط']),
    (['7'], ['ح']),
    (['8'], ['غ']),
    (['9'], ['ق']),
    (['d', 'h'], ['ذ']),
    (['d', '7'], ['ظ']),
    (['s', 'h'], ['ش']),
    (['s', '5'], ['ص']),
    (['s', '9'], ['ص']),
    (['d', '9'], ['ض']),
    (['z', '7'], ['ز']) ]

/-- startsWithKey key s: s begins with the literal key. -/
def startsWithKey : List Char → List Char → Bool
  | [], _ => true
  | _ :: _, [] => false
  | k :: ks, c :: cs => k == c && startsWithKey ks cs

/-- Fuel-indexed global literal replacement: scanning left to right, every
non-overlapping occurrence of key is replaced by rep, and the inserted rep
is not rescanned in the same pass. For fuel ≥ s.length this is exactly
normalizedText.replace(new RegExp(key, g), value) from source lines 62 to 66
and 73 to 77, because every table key is free of regex metacharacters. -/
def replaceAllFuel : Nat → List Char → List Char → List Char → List Char
  | 0, _, _, s => s
  | _ + 1, _, _, [] => []
  | fuel + 1, key, rep, c :: cs =>
    if !key.isEmpty && startsWithKey key (c :: cs) then
      rep ++ replaceAllFuel fuel key rep ((c :: cs).drop key.length)
    else
      c :: replaceAllFuel fuel key rep cs

/-- Global literal replacement of key by rep in s, with fuel s.length,
which always suffices. The outer match only keeps the definition lazy in
s; both branches agree with replaceAllFuel s.length key rep s. -/
def replaceAll (key rep s : List Char) : List Char :=
  match s with
  | [] => []
  | c :: cs => replaceAllFuel (c :: cs).length key rep (c :: cs)

/-- forEach over a list of table entries, applying each replacement in turn
to the whole working string (source lines 62 to 66 and 73 to 77). -/
def applyEntries (entries : List (List Char × List Char)) (s : List Char) : List Char :=
  entries.foldl (fun acc e => replaceAll e.1 e.2 acc) s

/-- Stable insertion of an entry into a list sorted by key length
descending: the new entry goes before the first entry whose key is not
longer, so equal lengths keep their original relative order. -/
def insertByLenDesc (e : List Char × List Char) :
    List (List Char × List Char) → List (List Char × List Char)
  | [] => [e]
  | x :: xs =>
    if x.1.length ≤ e.1.length then e :: x :: xs else x :: insertByLenDesc e xs

/-- Stable sort by key length descending, modelling
multiCharKeys.sort((a, b) => b.length - a.length) on source line 60
(Array.prototype.sort is stable). -/
def sortByLenDesc : List (List Char × List Char) → List (List Char × List Char)
  | [] => []
  | x :: xs => insertByLenDesc x (sortByLenDesc xs)

/-- The multi-character entries, key length > 1, sorted by key length
descending (source lines 58 to 60). -/
def multiCharEntries : List (List Char × List Char) :=
  sortByLenDesc (objectEntries.filter fun e => decide (1 < e.1.length))

/-- The single-character entries (source line 71). -/
def singleCharEntries : List (List Char × List Char) :=
  objectEntries.filter fun e => decide (e.1.length = 1)

/-- Fuel-indexed whitespace-run collapsing: every run of two or more
whitespace characters becomes one ASCII space, runs of one are kept; for
fuel ≥ s.length this is normalizedText.replace(regex of two or more
whitespace, single space) from source line 80. -/
def collapseWsFuel : Nat → List Char → List Char
  | 0, s => s
  | _ + 1, [] => []
  | _ + 1, [c] => [c]
  | fuel + 1, c₁ :: c₂ :: rest =>
    if isWsB c₁ && isWsB c₂ then
      ' ' :: collapseWsFuel fuel (rest.dropWhile isWsB)
    else
      c₁ :: collapseWsFuel fuel (c₂ :: rest)

/-- Whitespace-run collapsing (source line 80, first half), with fuel
s.length, which always suffices. The outer match only keeps the definition
lazy in s; both branches agree with collapseWsFuel s.length s. -/
def collapseWs (s : List Char) : List Char :=
  match s with
  | [] => []
  | c :: cs => collapseWsFuel (c :: cs).length (c :: cs)

/-- Removal of trailing whitespace. -/
def dropTrailWs (s : List Char) : List Char :=
  (s.reverse.dropWhile isWsB).reverse

/-- String.prototype.trim: remove leading and trailing whitespace
(source line 80, second half). -/
def trimWs (s : List Char) : List Char :=
  dropTrailWs (s.dropWhile isWsB)

/-- Step 4 of the source (line 80): collapse whitespace runs, then trim. -/
def cleanupWs (s : List Char) : List Char :=
  trimWs (collapseWs s)

/-- The normalization pipeline of normalizeDarija on the character list of a
string input (source lines 54 to 82): lowercase the whole input, apply the
multi-character entries, apply the single-character entries, clean up
whitespace. -/
def normalizeChars (s : List Char) : List Char :=
  cleanupWs (applyEntries singleCharEntries (applyEntries multiCharEntries (s.map lowerChar)))

/-- A JavaScript value, as far as normalizeDarija can distinguish one. -/
inductive JSValue where
  | str (s : String)
  | num (x : Float)
  | boolV (b : Bool)
  | nullV
  | undef
  | obj

/-- The typeof text === string test. -/
def isString : JSValue → Bool
  | .str _ => true
  | _ => false

/-- normalizeDarija (source lines 48 to 83). The guard on lines 49 to 51
returns the empty string for every non-string argument and for every falsy
argument; the empty string is the only falsy string. Otherwise the result
of the pipeline is returned. -/
def normalizeDarija : JSValue → String
  | .str s => if s = "" then "" else ⟨normalizeChars s.data⟩
  | _ => ""

/-- Membership in the Unicode Arabic block, U+0600 to U+06FF. -/
def isArabicChar (c : Char) : Bool :=
  1536 ≤ c.toNat && c.toNat ≤ 1791

/-- C1, counterexample: on the exact input of end-to-end scenario 1 the code
does not return the all-Arabic string the spec lists, because the table maps
only the digit and digraph tokens, never plain Latin letters. -/
theorem claim1_literal_output_counterexample :
    normalizeDarija (.str ("3andi 7ob l dar, 9albi dima fi bladi.")) ≠
      "عندي حب ل دار, قلبي ديما في بلادي." := by
  decide

/-- C1, amended: on the input of scenario 1 the digits 3, 7, 9 become the
letters ع, ح, ق, while every unmapped Latin letter, the punctuation and the
single spaces pass through unchanged. -/
theorem claim1_amended_actual_output :
    normalizeDarija (.str ("3andi 7ob l dar, 9albi dima fi bladi.")) =
      "عandi حob l dar, قalbi dima fi bladi." := by
  decide

/-- C2: every multi-character table token that contains some
single-character token is rewritten to its own multi-character replacement
by the pipeline, never to the single-character replacement with leftover
characters; in particular the token d7 gives ظ and not dح, because the
multi-character pass runs fully before the single-character pass. -/
theorem claim2_multichar_precedence :
    (∀ e ∈ ARABIC_CHAT_MAP, 1 < e.1.length →
      (∃ d ∈ e.1, ∃ e2 ∈ ARABIC_CHAT_MAP, e2.1 = [d]) →
      normalizeChars e.1 = e.2)
    ∧ normalizeDarija (.str ("d7")) = "ظ"
    ∧ normalizeDarija (.str ("d7")) ≠ "dح" :=
  ⟨by decide, by decide, by decide⟩

/-- C2, witness: the law instantiated at the table entry d7 yields ظ. -/
theorem claim2_multichar_precedence_witness :
    normalizeChars ['d', '7'] = ['ظ'] :=
  claim2_multichar_precedence.1 (['d', '7'], ['ظ']) (by decide) (by decide)
    ⟨'7', by decide, (['7'], ['ح']), by decide, rfl⟩

/-- C3: every non-string argument, and the empty string, is mapped to the
empty string by the guard on source lines 49 to 51; no error is raised
(the embedding is a total function). -/
theorem claim3_nonstring_empty :
    (∀ v : JSValue, isString v = false → normalizeDarija v = "")
    ∧ normalizeDarija (.str ("")) = "" := by
  constructor
  · intro v hv
    cases v <;> simp_all [isString, normalizeDarija]
  · decide

/-- C3, witness: the null value is mapped to the empty string. -/
theorem claim3_nonstring_empty_witness :
    normalizeDarija JSValue.nullV = "" :=
  claim3_nonstring_empty.1 JSValue.nullV (by decide)

/-- C4: on the input of end-to-end scenario 2 the output begins with
(indeed equals) the literal of the spec: sh becomes ش, 2 becomes ء, d9
inside d9i9a resolves to ض before the remaining 9 becomes ق, and the
unmapped Latin letters, including all of ghadi, stay unchanged. -/
theorem claim4_scenario2_output :
    normalizeDarija (.str ("shkun ghadi ydir 2chghal d9i9a?")) =
      "شkun ghadi ydir ءchghal ضiقa?"
    ∧ List.isPrefixOf ("شkun ghadi ydir ءchghal ضiقa?").data
        (normalizeDarija (.str ("shkun ghadi ydir 2chghal d9i9a?"))).data = true :=
  ⟨by decide, by decide⟩

/-- A character of dropWhile p l is a character of l. -/
theorem mem_of_mem_dropWhile {α : Type} (p : α → Bool) (l : List α) (c : α)
    (h : c ∈ l.dropWhile p) : c ∈ l := by
  induction l with
  | nil => exact h
  | cons a t ih =>
    rw [List.dropWhile_cons] at h
    by_cases hp : p a = true
    · rw [if_pos hp] at h
      exact List.mem_cons_of_mem a (ih h)
    · rw [if_neg hp] at h
      exact h

/-- The head of dropWhile p l fails p. -/
theorem head_dropWhile_false {α : Type} (p : α → Bool) (l : List α) (c : α)
    (h : (l.dropWhile p).head? = some c) : p c = false := by
  induction l with
  | nil => simp [List.dropWhile] at h
  | cons a t ih =>
    rw [List.dropWhile_cons] at h
    by_cases hp : p a = true
    · rw [if_pos hp] at h
      exact ih h
    · rw [if_neg hp] at h
      simp only [List.head?_cons, Option.some.injEq] at h
      subst h
      simpa using hp

/-- A character of l that fails p survives dropWhile p. -/
theorem mem_dropWhile_of_not {α : Type} (p : α → Bool) (l : List α) (c : α)
    (hc : c ∈ l) (hp : p c = false) : c ∈ l.dropWhile p := by
  induction l with
  | nil => exact hc
  | cons a t ih =>
    rw [List.dropWhile_cons]
    by_cases ha : p a = true
    · rw [if_pos ha]
      rcases List.mem_cons.mp hc with h | h
      · subst h
        rw [hp] at ha
        cases ha
      · exact ih h
    · rw [if_neg ha]
      exact hc

/-- dropWhile p is the identity when the head already fails p. -/
theorem dropWhile_eq_self_of_head {α : Type} (p : α → Bool) (l : List α)
    (h : l.head?.all (fun c => !p c) = true) : l.dropWhile p = l := by
  cases l with
  | nil => rfl
  | cons a t =>
    simp only [List.head?_cons, Option.all, Bool.not_eq_true'] at h
    rw [List.dropWhile_cons, if_neg]
    simp [h]

/-- dropWhile p l is a suffix of l. -/
theorem dropWhile_exists_app {α : Type} (p : α → Bool) (l : List α) :
    ∃ t, l = t ++ l.dropWhile p := by
  induction l with
  | nil => exact ⟨[], rfl⟩
  | cons a t ih =>
    by_cases ha : p a = true
    · obtain ⟨u, hu⟩ := ih
      refine ⟨a :: u, ?_⟩
      rw [List.dropWhile_cons, if_pos ha, List.cons_append]
      exact congrArg (a :: ·) hu
    · refine ⟨[], ?_⟩
      rw [List.dropWhile_cons, if_neg ha, List.nil_append]

/-- dropWhile p distributes over an append whose left part has a character
failing p. -/
theorem dropWhile_append_of_mem {α : Type} (p : α → Bool) (u w : List α)
    (h : ∃ x ∈ u, p x = false) : (u ++ w).dropWhile p = u.dropWhile p ++ w := by
  induction u with
  | nil =>
    rcases h with ⟨x, hx, _⟩
    cases hx
  | cons a t ih =>
    by_cases ha : p a = true
    · rw [List.cons_append, List.dropWhile_cons, if_pos ha, List.dropWhile_cons, if_pos ha]
      apply ih
      rcases h with ⟨x, hx, hpx⟩
      rcases List.mem_cons.mp hx with rfl | hx'
      · rw [hpx] at ha
        cases ha
      · exact ⟨x, hx', hpx⟩
    · rw [List.cons_append, List.dropWhile_cons, if_neg ha, List.dropWhile_cons, if_neg ha,
        List.cons_append]

/-- dropWhile never lengthens a list. -/
theorem length_dropWhile_le' {α : Type} (p : α → Bool) (l : List α) :
    (l.dropWhile p).length ≤ l.length := by
  induction l with
  | nil => simp
  | cons a t ih =>
    rw [List.dropWhile_cons]
    by_cases ha : p a = true
    · rw [if_pos ha]
      exact Nat.le_succ_of_le ih
    · rw [if_neg ha]

/-- A successful literal match pins down the first character. -/
theorem startsWithKey_head (k : Char) (ks : List Char) (c : Char) (cs : List Char)
    (h : startsWithKey (k :: ks) (c :: cs) = true) : k = c := by
  simp only [startsWithKey, Bool.and_eq_true, beq_iff_eq] at h
  exact h.1

/-- Replacement in the empty string gives the empty string, any fuel. -/
theorem replaceAllFuel_nil (f : Nat) (key rep : List Char) :
    replaceAllFuel f key rep [] = [] := by
  cases f <;> rfl

/-- replaceAll runs replaceAllFuel with fuel the length of the input. -/
theorem replaceAll_eq (key rep l : List Char) :
    replaceAll key rep l = replaceAllFuel l.length key rep l := by
  cases l <;> rfl

/-- Every character of a replacement result comes from the input or from the
inserted replacement text. -/
theorem mem_replaceAllFuel (f : Nat) (key rep : List Char) :
    ∀ l c, c ∈ replaceAllFuel f key rep l → c ∈ l ∨ c ∈ rep := by
  induction f with
  | zero => exact fun l c h => Or.inl h
  | succ f ih =>
    intro l c h
    cases l with
    | nil => exact Or.inl h
    | cons a t =>
      rw [replaceAllFuel] at h
      by_cases hc : (!key.isEmpty && startsWithKey key (a :: t)) = true

      · rw [if_pos hc] at h
        rcases List.mem_append.mp h with h | h
        · exact Or.inr h
        · rcases ih _ c h with h' | h'
          · exact Or.inl (List.mem_of_mem_drop h')
          · exact Or.inr h'
      · rw [if_neg hc] at h
        rcases List.mem_cons.mp h with rfl | h
        · exact Or.inl (List.mem_cons_self _ _)
        · rcases ih _ c h with h' | h'
          · exact Or.inl (List.mem_cons_of_mem a h')
          · exact Or.inr h'

/-- Replacement is the identity when the first character of the key does not
occur in the input. -/
theorem replaceAllFuel_id_of_head_notMem (f : Nat) (k : Char) (ks rep : List Char) :
    ∀ l, k ∉ l → replaceAllFuel f (k :: ks) rep l = l := by
  induction f with
  | zero => exact fun l _ => rfl
  | succ f ih =>
    intro l hk
    cases l with
    | nil => rfl
    | cons a t =>
      rw [replaceAllFuel, if_neg, ih t (fun h => hk (List.mem_cons_of_mem a h))]
      intro hc
      rcases Bool.and_eq_true _ _ |>.mp hc with ⟨-, hsw⟩
      have hka : k = a := startsWithKey_head k ks a t hsw
      apply hk
      rw [hka]
      exact List.mem_cons_self a t

/-- The single-character pass for key d removes every occurrence of d,
provided the replacement itself avoids d and the fuel covers the input. -/
theorem replaceAllFuel_single_removes (f : Nat) (d : Char) (rep : List Char) :
    ∀ l, l.length ≤ f → d ∉ rep → d ∉ replaceAllFuel f [d] rep l := by
  induction f with
  | zero =>
    intro l hl _
    rw [List.length_eq_zero.mp (Nat.le_zero.mp hl)]
    exact List.not_mem_nil d
  | succ f ih =>
    intro l hl hrep
    cases l with
    | nil => exact List.not_mem_nil d
    | cons a t =>
      rw [replaceAllFuel]
      by_cases hc : (!List.isEmpty [d] && startsWithKey [d] (a :: t)) = true
      · rw [if_pos hc]
        intro hmem
        rcases List.mem_append.mp hmem with h | h
        · exact hrep h
        · have ht : t.length ≤ f := Nat.le_of_succ_le_succ hl
          exact ih t ht hrep (by simpa using h)
      · rw [if_neg hc]
        intro hmem
        rcases List.mem_cons.mp hmem with rfl | h
        · apply hc
          simp [startsWithKey, List.isEmpty]
        · exact ih t (Nat.le_of_succ_le_succ hl) hrep h

/-- A character absent from the input and from every replacement text is
absent from the result of a sequence of replacements. -/
theorem applyEntries_notMem (entries : List (List Char × List Char)) :
    ∀ l c, c ∉ l → (∀ e ∈ entries, c ∉ e.2) → c ∉ applyEntries entries l := by
  induction entries with
  | nil => exact fun l c hl _ => hl
  | cons e rest ih =>
    intro l c hl hr
    have h1 : c ∉ replaceAll e.1 e.2 l := by
      rw [replaceAll_eq]
      intro h
      rcases mem_replaceAllFuel _ _ _ _ _ h with h' | h'
      · exact hl h'
      · exact hr e (List.mem_cons_self _ _) h'
    exact ih _ c h1 (fun e' he' => hr e' (List.mem_cons_of_mem e he'))

/-- After a pass of single-character entries whose replacement texts avoid
all the keys, no key character remains. -/
theorem applyEntries_removes (entries : List (List Char × List Char))
    (hsingle : ∀ e ∈ entries, ∃ d, e.1 = [d])
    (hcross : ∀ e ∈ entries, ∀ e' ∈ entries, ∀ d, e'.1 = [d] → d ∉ e.2) :
    ∀ l c, (∃ e ∈ entries, e.1 = [c]) → c ∉ applyEntries entries l := by
  induction entries with
  | nil =>
    rintro l c ⟨e, he, -⟩
    cases he
  | cons e₀ rest ih =>
    rintro l c ⟨e, he, hkey⟩
    rcases List.mem_cons.mp he with heq | he'
    · have hkey0 : e₀.1 = [c] := by rw [← heq]; exact hkey
      have hnotrep : c ∉ e₀.2 :=
        hcross e₀ (List.mem_cons_self _ _) e₀ (List.mem_cons_self _ _) c hkey0
      have h1 : c ∉ replaceAll e₀.1 e₀.2 l := by
        rw [replaceAll_eq, hkey0]
        exact replaceAllFuel_single_removes _ c e₀.2 l (Nat.le_refl _) hnotrep
      exact applyEntries_notMem rest _ c h1
        (fun e' he' => hcross e' (List.mem_cons_of_mem e₀ he') e₀ (List.mem_cons_self _ _) c hkey0)
    · exact ih (fun e' h => hsingle e' (List.mem_cons_of_mem e₀ h))
        (fun e' h e'' h' => hcross e' (List.mem_cons_of_mem e₀ h) e'' (List.mem_cons_of_mem e₀ h'))
        _ c ⟨e, he', hkey⟩

/-- A sequence of replacements is the identity when, for every entry, the
first character of its key does not occur in the input. -/
theorem applyEntries_id (entries : List (List Char × List Char)) :
    ∀ l, (∀ e ∈ entries, ∃ k ks, e.1 = k :: ks ∧ k ∉ l) →
      applyEntries entries l = l := by
  induction entries with
  | nil => exact fun l _ => rfl
  | cons e rest ih =>
    intro l h
    obtain ⟨k, ks, hkey, hk⟩ := h e (List.mem_cons_self _ _)
    have h1 : replaceAll e.1 e.2 l = l := by
      rw [replaceAll_eq, hkey]
      exact replaceAllFuel_id_of_head_notMem _ k ks e.2 l hk
    show applyEntries rest (replaceAll e.1 e.2 l) = l
    rw [h1]
    exact ih l (fun e' he' => h e' (List.mem_cons_of_mem e he'))

/-- No two adjacent whitespace characters. -/
abbrev noWsPair (a b : Char) : Prop :=
  ¬(isWsB a = true ∧ isWsB b = true)

/-- Collapsing the empty string gives the empty string, any fuel. -/
theorem collapseWsFuel_nil (f : Nat) : collapseWsFuel f [] = [] := by
  cases f <;> rfl

/-- collapseWs runs collapseWsFuel with fuel the length of the input. -/
theorem collapseWs_eq (l : List Char) :
    collapseWs l = collapseWsFuel l.length l := by
  cases l <;> rfl

/-- The fuel is irrelevant once it covers the length of the input. -/
theorem collapseWsFuel_congr :
    ∀ f g l, l.length ≤ f → l.length ≤ g → collapseWsFuel f l = collapseWsFuel g l := by
  intro f
  induction f with
  | zero =>
    intro g l hf _
    rw [List.length_eq_zero.mp (Nat.le_zero.mp hf)]
    rw [collapseWsFuel_nil, collapseWsFuel_nil]
  | succ f ih =>
    intro g l hf hg
    cases l with
    | nil => rw [collapseWsFuel_nil, collapseWsFuel_nil]
    | cons c₁ t =>
      cases t with
      | nil =>
        cases g with
        | zero => simp at hg
        | succ g => rfl
      | cons c₂ rest =>
        cases g with
        | zero => simp at hg
        | succ g =>
          simp only [List.length_cons] at hf hg
          have hdl : (rest.dropWhile isWsB).length ≤ rest.length :=
            length_dropWhile_le' isWsB rest
          simp only [collapseWsFuel]
          by_cases hww : (isWsB c₁ && isWsB c₂) = true
          · rw [if_pos hww, if_pos hww]
            exact congrArg (' ' :: ·) (ih g _ (by omega) (by omega))
          · rw [if_neg hww, if_neg hww]
            exact congrArg (c₁ :: ·) (ih g _ (by simp; omega) (by simp; omega))

/-- Unfolding equation of collapseWs on a list of length at least two. -/
theorem collapseWs_cons₂ (c₁ c₂ : Char) (rest : List Char) :
    collapseWs (c₁ :: c₂ :: rest) =
      if (isWsB c₁ && isWsB c₂) = true then
        ' ' :: collapseWs (rest.dropWhile isWsB)
      else
        c₁ :: collapseWs (c₂ :: rest) := by
  rw [collapseWs_eq, collapseWs_eq (rest.dropWhile isWsB), collapseWs_eq (c₂ :: rest)]
  simp only [List.length_cons, collapseWsFuel]
  have hdl : (rest.dropWhile isWsB).length ≤ rest.length :=
    length_dropWhile_le' isWsB rest
  by_cases hww : (isWsB c₁ && isWsB c₂) = true
  · rw [if_pos hww, if_pos hww]
    exact congrArg (' ' :: ·)
      (collapseWsFuel_congr _ _ _ (by omega) (Nat.le_refl _))
  · rw [if_neg hww, if_neg hww]

/-- A non-whitespace head survives collapsing as the head. -/
theorem collapseWsFuel_head (f : Nat) (h : Char) (t : List Char)
    (hw : isWsB h = false) : (collapseWsFuel f (h :: t)).head? = some h := by
  cases f with
  | zero => rfl
  | succ f =>
    cases t with
    | nil => rfl
    | cons c₂ rest =>
      simp only [collapseWsFuel]
      rw [if_neg (by simp [hw])]
      rfl

/-- The collapsing pass leaves no two adjacent whitespace characters. -/
theorem chain'_collapseWsFuel :
    ∀ f l, l.length ≤ f → List.Chain' noWsPair (collapseWsFuel f l) := by
  intro f
  induction f with
  | zero =>
    intro l hf
    rw [List.length_eq_zero.mp (Nat.le_zero.mp hf)]
    exact List.chain'_nil
  | succ f ih =>
    intro l hf
    cases l with
    | nil =>
      rw [collapseWsFuel_nil]
      exact List.chain'_nil
    | cons c₁ t =>
      cases t with
      | nil => exact List.chain'_singleton c₁
      | cons c₂ rest =>
        simp only [List.length_cons] at hf
        have hdl : (rest.dropWhile isWsB).length ≤ rest.length :=
          length_dropWhile_le' isWsB rest
        simp only [collapseWsFuel]
        by_cases hww : (isWsB c₁ && isWsB c₂) = true
        · rw [if_pos hww]
          refine List.chain'_cons'.mpr ⟨?_, ih _ (by omega)⟩
          intro y hy
          cases hd : rest.dropWhile isWsB with
          | nil =>
            rw [hd, collapseWsFuel_nil] at hy
            cases hy
          | cons h0 t0 =>
            have hh0 : isWsB h0 = false :=
              head_dropWhile_false isWsB rest h0 (by rw [hd]; rfl)
            rw [hd, collapseWsFuel_head f h0 t0 hh0] at hy
            cases hy
            intro hpair
            rw [hh0] at hpair
            exact Bool.false_ne_true hpair.2
        · rw [if_neg hww]
          refine List.chain'_cons'.mpr ⟨?_, ih _ (by simp; omega)⟩
          intro y hy
          by_cases hc2 : isWsB c₂ = true
          · have hc1 : isWsB c₁ = false := by
              cases h1 : isWsB c₁
              · rfl
              · exact absurd (by rw [h1, hc2]; rfl) hww
            intro hpair
            rw [hc1] at hpair
            exact Bool.false_ne_true hpair.1
          · rw [collapseWsFuel_head f c₂ rest (by simpa using hc2)] at hy
            cases hy
            intro hpair
            exact hc2 hpair.2

/-- Collapsing is the identity on a list with no two adjacent whitespace
characters. -/
theorem collapseWsFuel_of_chain :
    ∀ f l, l.length ≤ f → List.Chain' noWsPair l → collapseWsFuel f l = l := by
  intro f
  induction f with
  | zero =>
    intro l hf _
    rw [List.length_eq_zero.mp (Nat.le_zero.mp hf)]
    exact collapseWsFuel_nil 0
  | succ f ih =>
    intro l hf hch
    cases l with
    | nil => rfl
    | cons c₁ t =>
      cases t with
      | nil => rfl
      | cons c₂ rest =>
        simp only [List.length_cons] at hf
        obtain ⟨hp, hch'⟩ := List.chain'_cons.mp hch
        simp only [collapseWsFuel]
        rw [if_neg (by simp only [Bool.and_eq_true]; exact hp)]
        exact congrArg (c₁ :: ·) (ih _ (by simp; omega) hch')

/-- Every character of the collapsed list is a character of the input or the
ASCII space inserted for a run. -/
theorem mem_collapseWsFuel :
    ∀ f l c, c ∈ collapseWsFuel f l → c ∈ l ∨ c = ' ' := by
  intro f
  induction f with
  | zero => exact fun l c h => Or.inl h
  | succ f ih =>
    intro l c h
    cases l with
    | nil =>
      rw [collapseWsFuel_nil] at h
      exact Or.inl h
    | cons c₁ t =>
      cases t with
      | nil => exact Or.inl h
      | cons c₂ rest =>
        simp only [collapseWsFuel] at h
        by_cases hww : (isWsB c₁ && isWsB c₂) = true
        · rw [if_pos hww] at h
          rcases List.mem_cons.mp h with rfl | h'
          · exact Or.inr rfl
          · rcases ih _ c h' with h'' | h''
            · exact Or.inl (List.mem_cons_of_mem c₁ (List.mem_cons_of_mem c₂
                (mem_of_mem_dropWhile isWsB rest c h'')))
            · exact Or.inr h''
        · rw [if_neg hww] at h
          rcases List.mem_cons.mp h with rfl | h'
          · exact Or.inl (List.mem_cons_self _ _)
          · rcases ih _ c h' with h'' | h''
            · exact Or.inl (List.mem_cons_of_mem c₁ h'')
            · exact Or.inr h''

/-- A non-whitespace character of the input survives collapsing. -/
theorem mem_collapse_of_not_ws :
    ∀ f l c, c ∈ l → isWsB c = false → c ∈ collapseWsFuel f l := by
  intro f
  induction f with
  | zero => exact fun l c h _ => h
  | succ f ih =>
    intro l c hc hw
    cases l with
    | nil => exact hc
    | cons c₁ t =>
      cases t with
      | nil => exact hc
      | cons c₂ rest =>
        simp only [collapseWsFuel]
        by_cases hww : (isWsB c₁ && isWsB c₂) = true
        · rw [if_pos hww]
          obtain ⟨h1, h2⟩ := Bool.and_eq_true _ _ |>.mp hww
          rcases List.mem_cons.mp hc with rfl | hc'
          · rw [hw] at h1
            cases h1
          rcases List.mem_cons.mp hc' with rfl | hc''
          · rw [hw] at h2
            cases h2
          exact List.mem_cons_of_mem ' '
            (ih _ c (mem_dropWhile_of_not isWsB rest c hc'' hw) hw)
        · rw [if_neg hww]
          rcases List.mem_cons.mp hc with rfl | hc'
          · exact List.mem_cons_self _ _
          · exact List.mem_cons_of_mem c₁ (ih _ c hc' hw)

/-- dropWhile preserves the no-adjacent-pair property. -/
theorem chain'_dropWhile {R : Char → Char → Prop} (p : Char → Bool) :
    ∀ l, List.Chain' R l → List.Chain' R (l.dropWhile p) := by
  intro l h
  induction l with
  | nil => exact h
  | cons a t ih =>
    rw [List.dropWhile_cons]
    by_cases hp : p a = true
    · rw [if_pos hp]
      exact ih h.tail
    · rw [if_neg hp]
      exact h

/-- Removing trailing whitespace preserves the no-adjacent-pair property. -/
theorem chain'_dropTrailWs (l : List Char) (h : List.Chain' noWsPair l) :
    List.Chain' noWsPair (dropTrailWs l) := by
  have hsymm : ∀ a b : Char, noWsPair a b → noWsPair b a :=
    fun a b hab ⟨hx, hy⟩ => hab ⟨hy, hx⟩
  have h1 : List.Chain' (flip noWsPair) l := h.imp hsymm
  have h2 : List.Chain' noWsPair l.reverse := List.chain'_reverse.mpr h1
  have h3 : List.Chain' noWsPair (l.reverse.dropWhile isWsB) :=
    chain'_dropWhile isWsB _ h2
  exact List.chain'_reverse.mpr (h3.imp hsymm)

/-- Trimming preserves the no-adjacent-pair property. -/
theorem chain'_trimWs (l : List Char) (h : List.Chain' noWsPair l) :
    List.Chain' noWsPair (trimWs l) :=
  chain'_dropTrailWs _ (chain'_dropWhile isWsB _ h)

/-- The head survives removal of trailing whitespace. -/
theorem dropTrailWs_head (u : List Char) (c : Char)
    (h : (dropTrailWs u).head? = some c) : u.head? = some c := by
  have hd : (u.reverse.dropWhile isWsB).reverse ≠ [] := by
    intro hnil
    rw [dropTrailWs, hnil] at h
    cases h
  obtain ⟨t, ht⟩ := dropWhile_exists_app isWsB u.reverse
  have hu : u = (u.reverse.dropWhile isWsB).reverse ++ t.reverse := by
    have h2 := congrArg List.reverse ht
    rw [List.reverse_reverse, List.reverse_append] at h2
    exact h2
  rw [hu, List.head?_append_of_ne_nil _ hd]
  exact h

/-- The trimmed result has no leading whitespace. -/
theorem trimWs_head_all (l : List Char) :
    (trimWs l).head?.all (fun c => !isWsB c) = true := by
  cases hh : (trimWs l).head? with
  | none => rfl
  | some c =>
    have h1 : (l.dropWhile isWsB).head? = some c := dropTrailWs_head _ c hh
    have h2 : isWsB c = false := head_dropWhile_false isWsB _ c h1
    simp [Option.all, h2]

/-- The trimmed result has no trailing whitespace. -/
theorem trimWs_last_all (l : List Char) :
    (trimWs l).getLast?.all (fun c => !isWsB c) = true := by
  show ((l.dropWhile isWsB).reverse.dropWhile isWsB).reverse.getLast?.all
    (fun c => !isWsB c) = true
  rw [List.getLast?_reverse]
  cases hh : ((l.dropWhile isWsB).reverse.dropWhile isWsB).head? with
  | none => rfl
  | some c =>
    have h2 : isWsB c = false := head_dropWhile_false isWsB _ c hh
    simp [Option.all, h2]

/-- Every character of the trimmed list is a character of the input. -/
theorem mem_of_mem_trimWs (l : List Char) (c : Char) (h : c ∈ trimWs l) :
    c ∈ l := by
  have h1 : c ∈ (l.dropWhile isWsB).reverse.dropWhile isWsB :=
    List.mem_reverse.mp h
  have h2 : c ∈ (l.dropWhile isWsB).reverse :=
    mem_of_mem_dropWhile isWsB _ c h1
  exact mem_of_mem_dropWhile isWsB l c (List.mem_reverse.mp h2)

/-- Removing trailing whitespace is the identity when the last character is
not whitespace. -/
theorem dropTrailWs_eq_self (l : List Char)
    (h : l.getLast?.all (fun c => !isWsB c) = true) : dropTrailWs l = l := by
  rw [dropTrailWs, dropWhile_eq_self_of_head isWsB l.reverse
    (by rw [List.head?_reverse]; exact h), List.reverse_reverse]

/-- Trimming is the identity on a list with no leading and no trailing
whitespace. -/
theorem trimWs_eq_self (l : List Char)
    (h1 : l.head?.all (fun c => !isWsB c) = true)
    (h2 : l.getLast?.all (fun c => !isWsB c) = true) : trimWs l = l := by
  rw [trimWs, dropWhile_eq_self_of_head isWsB l h1, dropTrailWs_eq_self l h2]

/-- The character list of a string built from a character list. -/
theorem data_mk (l : List Char) : (String.mk l).data = l := rfl

/-- Collapsing leaves no two adjacent whitespace characters. -/
theorem chain'_collapseWs (l : List Char) :
    List.Chain' noWsPair (collapseWs l) := by
  rw [collapseWs_eq]
  exact chain'_collapseWsFuel l.length l (Nat.le_refl l.length)

/-- Unfolding equation of the pipeline. -/
theorem normalizeChars_eq (l : List Char) :
    normalizeChars l =
      trimWs (collapseWs (applyEntries singleCharEntries
        (applyEntries multiCharEntries (l.map lowerChar)))) := rfl

/-- The pipeline output has no adjacent whitespace pair, no leading
whitespace and no trailing whitespace. -/
theorem normalizeChars_ws_props (l : List Char) :
    List.Chain' noWsPair (normalizeChars l)
    ∧ (normalizeChars l).head?.all (fun c => !isWsB c) = true
    ∧ (normalizeChars l).getLast?.all (fun c => !isWsB c) = true := by
  rw [normalizeChars_eq]
  refine ⟨?_, ?_, ?_⟩
  · exact chain'_trimWs
      (collapseWs (applyEntries singleCharEntries
        (applyEntries multiCharEntries (l.map lowerChar))))
      (chain'_collapseWs (applyEntries singleCharEntries
        (applyEntries multiCharEntries (l.map lowerChar))))
  · exact trimWs_head_all
      (collapseWs (applyEntries singleCharEntries
        (applyEntries multiCharEntries (l.map lowerChar))))
  · exact trimWs_last_all
      (collapseWs (applyEntries singleCharEntries
        (applyEntries multiCharEntries (l.map lowerChar))))

/-- C5: on every string input the output of normalize has no run of two or
more consecutive whitespace characters, no leading whitespace and no
trailing whitespace. -/
theorem claim5_whitespace_normalized (s : String) :
    List.Chain' noWsPair (normalizeDarija (.str s)).data
    ∧ (normalizeDarija (.str s)).data.head?.all (fun c => !isWsB c) = true
    ∧ (normalizeDarija (.str s)).data.getLast?.all (fun c => !isWsB c) = true := by
  by_cases hs : s = ""
  · subst hs
    exact ⟨by decide, by decide, by decide⟩
  · have hrw : normalizeDarija (.str s) = ⟨normalizeChars s.data⟩ := by
      simp [normalizeDarija, hs]
    rw [hrw, data_mk]
    exact normalizeChars_ws_props s.data

/-- C5, witness: the law instantiated at a concrete input with internal runs
and edge whitespace. -/
theorem claim5_whitespace_normalized_witness :
    List.Chain' noWsPair (normalizeDarija (.str (" a  b   c "))).data
    ∧ (normalizeDarija (.str (" a  b   c "))).data.head?.all
        (fun c => !isWsB c) = true
    ∧ (normalizeDarija (.str (" a  b   c "))).data.getLast?.all
        (fun c => !isWsB c) = true :=
  claim5_whitespace_normalized (" a  b   c ")

/-- C6: normalize of SH and of sh agree and give ش, and in general the
pipeline output depends on the input only through its lowercase image,
because case folding happens once, globally, before any substitution; hence
inputs differing only in ASCII letter case normalize identically. -/
theorem claim6_case_insensitive :
    normalizeDarija (.str ("SH")) = normalizeDarija (.str ("sh"))
    ∧ normalizeDarija (.str ("sh")) = "ش"
    ∧ ∀ s t : List Char, s.map lowerChar = t.map lowerChar →
        normalizeChars s = normalizeChars t := by
  refine ⟨by decide, by decide, ?_⟩
  intro s t h
  rw [normalizeChars_eq, normalizeChars_eq, h]

/-- C6, witness: two mixed-case spellings of sh normalize identically. -/
theorem claim6_case_insensitive_witness :
    normalizeChars ['S', 'h'] = normalizeChars ['s', 'H'] :=
  claim6_case_insensitive.2.2 ['S', 'h'] ['s', 'H'] (by decide)

/-- C7: on every string input normalize returns a string; the embedding is a
total function, mirroring that the source string path has no throw. -/
theorem claim7_total_on_strings (s : String) :
    ∃ t : String, normalizeDarija (.str s) = t :=
  ⟨normalizeDarija (.str s), rfl⟩

/-- C7, witness: the totality instantiated at a concrete input. -/
theorem claim7_total_on_strings_witness :
    ∃ t : String, normalizeDarija (.str ("shkun?")) = t :=
  claim7_total_on_strings ("shkun?")

/-- C9: on every string input the output of normalize contains none of the
table digits 2, 3, 5, 6, 7, 8, 9: the single-character pass removes every
remaining occurrence, the replacement texts and the whitespace cleanup never
reintroduce one; the digits 0, 1 and 4 are not in the table and remain. -/
theorem claim9_no_digits_in_output :
    (∀ (s : String) (c : Char),
      c ∈ (['2', '3', '5', '6', '7', '8', '9'] : List Char) →
      c ∉ (normalizeDarija (.str s)).data)
    ∧ normalizeDarija (.str ("014")) = "014" := by
  refine ⟨?_, by decide⟩
  intro s c hc
  by_cases hs : s = ""
  · subst hs
    simp only [List.mem_cons, List.not_mem_nil, or_false] at hc
    rcases hc with rfl | rfl | rfl | rfl | rfl | rfl | rfl <;> decide
  · have hrw : normalizeDarija (.str s) = ⟨normalizeChars s.data⟩ := by
      simp [normalizeDarija, hs]
    rw [hrw, data_mk, normalizeChars_eq]
    intro hmem
    have h1 : c ∈ collapseWs (applyEntries singleCharEntries
        (applyEntries multiCharEntries (s.data.map lowerChar))) :=
      mem_of_mem_trimWs _ c hmem
    rw [collapseWs_eq] at h1
    have h2 := mem_collapseWsFuel _ _ c h1
    have hspace : ∀ c0 ∈ (['2', '3', '5', '6', '7', '8', '9'] : List Char),
        c0 ≠ (' ' : Char) := by decide
    have hsingle : ∀ e ∈ singleCharEntries, ∃ d, e.1 = [d] := by
      intro e he
      have hlen : ∀ e0 ∈ singleCharEntries, e0.1.length = 1 := by decide
      exact List.length_eq_one.mp (hlen e he)
    have hcross0 : ∀ e ∈ singleCharEntries, ∀ e2 ∈ singleCharEntries,
        ∀ d ∈ e2.1, d ∉ e.2 := by decide
    have hcross : ∀ e ∈ singleCharEntries, ∀ e2 ∈ singleCharEntries,
        ∀ d, e2.1 = [d] → d ∉ e.2 := by
      intro e he e2 he2 d hd
      refine hcross0 e he e2 he2 d ?_
      rw [hd]
      exact List.mem_cons_self _ _
    have hex : ∀ c0 ∈ (['2', '3', '5', '6', '7', '8', '9'] : List Char),
        ∃ e ∈ singleCharEntries, e.1 = [c0] := by decide
    have hgone : c ∉ applyEntries singleCharEntries
        (applyEntries multiCharEntries (s.data.map lowerChar)) :=
      applyEntries_removes singleCharEntries hsingle hcross _ c (hex c hc)
    rcases h2 with h2 | h2
    · exact hgone h2
    · exact hspace c hc h2

/-- C9, witness: the digit 7 is absent from the output on a concrete
input. -/
theorem claim9_no_digits_in_output_witness :
    '7' ∉ (normalizeDarija (.str ("3a7"))).data :=
  claim9_no_digits_in_output.1 ("3a7") '7' (by decide)

/-- Mapping a function that fixes every element of a list is the identity. -/
theorem map_eq_self_of {α : Type} (f : α → α) (l : List α)
    (h : ∀ c ∈ l, f c = c) : l.map f = l := by
  induction l with
  | nil => rfl
  | cons a t ih =>
    rw [List.map_cons, h a (List.mem_cons_self _ _),
      ih (fun c hc => h c (List.mem_cons_of_mem a hc))]

/-- lowerChar fixes every character outside the ASCII uppercase range. -/
theorem lowerChar_eq_self (c : Char) (h : ¬(65 ≤ c.toNat ∧ c.toNat ≤ 90)) :
    lowerChar c = c := by
  rw [lowerChar, if_neg]
  simpa using h

/-- No character of the Arabic block is whitespace. -/
theorem isWsB_eq_false_of_arabic (c : Char) (h : isArabicChar c = true) :
    isWsB c = false := by
  have h1 : 1536 ≤ c.toNat ∧ c.toNat ≤ 1791 := by simpa [isArabicChar] using h
  simp only [isWsB, Bool.or_eq_false_iff, Bool.and_eq_false_iff,
    decide_eq_false_iff_not]
  omega

/-- A whitespace character that is Arabic or a space is the space. -/
theorem eq_space_of_ws (c : Char) (hp : isArabicChar c = true ∨ c = ' ')
    (hw : isWsB c = true) : c = ' ' := by
  rcases hp with h | h
  · rw [isWsB_eq_false_of_arabic c h] at hw
    exact absurd hw Bool.false_ne_true
  · exact h

/-- Transfer of the no-adjacent-pair property along a pointwise implication
that may use membership in the list. -/
theorem chain'_imp_mem {R S : Char → Char → Prop} (P : Char → Prop) :
    ∀ l, (∀ c ∈ l, P c) → (∀ a b, P a → P b → R a b → S a b) →
      List.Chain' R l → List.Chain' S l := by
  intro l
  induction l with
  | nil => exact fun _ _ _ => List.chain'_nil
  | cons a t ih =>
    intro hP himp hch
    obtain ⟨hhd, htl⟩ := List.chain'_cons'.mp hch
    refine List.chain'_cons'.mpr ⟨?_, ih (fun c hc => hP c (List.mem_cons_of_mem a hc)) himp htl⟩
    intro y hy
    have hyt : y ∈ t := List.mem_of_mem_head? hy
    exact himp a y (hP a (List.mem_cons_self _ _))
      (hP y (List.mem_cons_of_mem a hyt)) (hhd y hy)

/-- The last element, when present, is a member. -/
theorem mem_of_getLast?_eq {α : Type} (l : List α) (c : α)
    (h : l.getLast? = some c) : c ∈ l := by
  induction l with
  | nil => cases h
  | cons a t ih =>
    cases t with
    | nil =>
      simp only [List.getLast?_singleton, Option.some.injEq] at h
      rw [h]
      exact List.mem_cons_self _ _
    | cons b t2 =>
      rw [List.getLast?_cons_cons] at h
      exact List.mem_cons_of_mem a (ih h)

/-- A character that is neither Arabic nor the space is absent from a list
of Arabic-or-space characters. -/
theorem notMem_of_arabic_or_space (l : List Char)
    (hall : ∀ c ∈ l, isArabicChar c = true ∨ c = ' ')
    (k : Char) (h1 : isArabicChar k = false) (h2 : k ≠ ' ') : k ∉ l := by
  intro hk
  rcases hall k hk with h | h
  · rw [h1] at h
    exact Bool.false_ne_true h
  · exact h2 h

/-- The pipeline is the identity on a list of Arabic-block characters and
single internal spaces with no leading or trailing space. -/
theorem normalizeChars_id_of_arabic (l : List Char)
    (hall : ∀ c ∈ l, isArabicChar c = true ∨ c = ' ')
    (hchain : List.Chain' (fun a b => ¬(a = ' ' ∧ b = ' ')) l)
    (hhead : l.head?.all (fun c => c != ' ') = true)
    (hlast : l.getLast?.all (fun c => c != ' ') = true) :
    normalizeChars l = l := by
  rw [normalizeChars_eq]
  have hlow : l.map lowerChar = l := by
    apply map_eq_self_of
    intro c hcin
    rcases hall c hcin with h | h
    · apply lowerChar_eq_self
      have h1 : 1536 ≤ c.toNat ∧ c.toNat ≤ 1791 := by simpa [isArabicChar] using h
      omega
    · rw [h]
      decide
  rw [hlow]
  have hid : ∀ entries : List (List Char × List Char),
      (∀ e0 ∈ entries, e0.1 ≠ ([] : List Char)) →
      (∀ e0 ∈ entries,
        e0.1.head?.all (fun k => !isArabicChar k && !(k == ' ')) = true) →
      applyEntries entries l = l := by
    intro entries hne hhd
    apply applyEntries_id
    intro e he
    cases hk : e.1 with
    | nil => exact absurd hk (hne e he)
    | cons k ks =>
      refine ⟨k, ks, rfl, ?_⟩
      have h0 := hhd e he
      rw [hk] at h0
      simp only [List.head?_cons, Option.all, Bool.and_eq_true, Bool.not_eq_true',
        beq_eq_false_iff_ne] at h0
      exact notMem_of_arabic_or_space l hall k h0.1 h0.2
  rw [hid multiCharEntries (by decide) (by decide),
    hid singleCharEntries (by decide) (by decide)]
  have hchw : List.Chain' noWsPair l := by
    refine chain'_imp_mem (fun c => isArabicChar c = true ∨ c = ' ') l hall ?_ hchain
    intro a b hPa hPb hRab hand
    exact hRab ⟨eq_space_of_ws a hPa hand.1, eq_space_of_ws b hPb hand.2⟩
  have hcol : collapseWs l = l := by
    rw [collapseWs_eq]
    exact collapseWsFuel_of_chain _ _ (Nat.le_refl _) hchw
  rw [hcol]
  apply trimWs_eq_self
  · cases hh : l.head? with
    | none => rfl
    | some c =>
      have hcin : c ∈ l := List.mem_of_mem_head? (by rw [hh]; rfl)
      have hcs : c ≠ ' ' := by
        rw [hh] at hhead
        simpa [Option.all] using hhead
      rcases hall c hcin with h | h
      · simp [Option.all, isWsB_eq_false_of_arabic c h]
      · exact absurd h hcs
  · cases hh : l.getLast? with
    | none => rfl
    | some c =>
      have hcin : c ∈ l := mem_of_getLast?_eq l c hh
      have hcs : c ≠ ' ' := by
        rw [hh] at hlast
        simpa [Option.all] using hlast
      rcases hall c hcin with h | h
      · simp [Option.all, isWsB_eq_false_of_arabic c h]
      · exact absurd h hcs

/-- C8: normalize is the identity on every string of Arabic-block characters
and single internal spaces with no leading or trailing whitespace. -/
theorem claim8_idempotent_on_arabic (s : String)
    (hall : ∀ c ∈ s.data, isArabicChar c = true ∨ c = ' ')
    (hchain : List.Chain' (fun a b => ¬(a = ' ' ∧ b = ' ')) s.data)
    (hhead : s.data.head?.all (fun c => c != ' ') = true)
    (hlast : s.data.getLast?.all (fun c => c != ' ') = true) :
    normalizeDarija (.str s) = s := by
  by_cases hs : s = ""
  · subst hs
    decide
  · have hrw : normalizeDarija (.str s) = ⟨normalizeChars s.data⟩ := by
      simp [normalizeDarija, hs]
    rw [hrw]
    cases s with
    | mk l =>
      exact congrArg String.mk (normalizeChars_id_of_arabic l hall hchain hhead hlast)

/-- Executable check for no two adjacent spaces. -/
def noPairSpaceB : List Char → Bool
  | [] => true
  | [_] => true
  | a :: b :: t => !(a == ' ' && b == ' ') && noPairSpaceB (b :: t)

/-- The executable check implies the no-adjacent-space property. -/
theorem chain'_of_noPairSpaceB :
    ∀ l, noPairSpaceB l = true →
      List.Chain' (fun a b => ¬(a = ' ' ∧ b = ' ')) l := by
  intro l
  induction l with
  | nil => exact fun _ => List.chain'_nil
  | cons a t ih =>
    cases t with
    | nil => exact fun _ => List.chain'_singleton a
    | cons b t2 =>
      intro h
      simp only [noPairSpaceB, Bool.and_eq_true] at h
      refine List.chain'_cons.mpr ⟨?_, ih h.2⟩
      intro hpair
      have hb : (a == ' ' && b == ' ') = true := by
        simp [hpair.1, hpair.2]
      have h1 := h.1
      rw [hb] at h1
      simp at h1

/-- C8, witness: a concrete Arabic sentence with one internal space is
returned unchanged. -/
theorem claim8_idempotent_on_arabic_witness :
    normalizeDarija (.str ("سلام عليكم")) = "سلام عليكم" :=
  claim8_idempotent_on_arabic ("سلام عليكم") (by decide)
    (chain'_of_noPairSpaceB _ (by decide)) (by decide) (by decide)

/-- A kept single whitespace: collapsing keeps the head when what follows
starts with a non-whitespace character. -/
theorem collapseWs_ws_cons (c : Char) (b : List Char)
    (hbh : b.head?.all (fun y => !isWsB y) = true) :
    collapseWs (c :: b) = c :: collapseWs b := by
  cases b with
  | nil => rfl
  | cons y b' =>
    have hy : isWsB y = false := by
      simpa [Option.all] using hbh
    rw [collapseWs_cons₂, if_neg (by simp [hy])]

/-- Collapsing distributes over an append at a position whose left context
ends in a non-whitespace character and whose right context starts with a
non-whitespace character; the middle character is kept as is. -/
theorem collapseWs_append_split :
    ∀ (n : Nat) (a : List Char), a.length ≤ n →
      ∀ (c : Char) (b : List Char),
        a.getLast?.all (fun x => !isWsB x) = true →
        b.head?.all (fun y => !isWsB y) = true →
        collapseWs (a ++ c :: b) = collapseWs a ++ c :: collapseWs b := by
  intro n
  induction n with
  | zero =>
    intro a ha c b hal hbh
    rw [List.length_eq_zero.mp (Nat.le_zero.mp ha), List.nil_append,
      collapseWs_ws_cons c b hbh]
    rfl
  | succ n ih =>
    intro a ha c b hal hbh
    cases a with
    | nil =>
      rw [List.nil_append, collapseWs_ws_cons c b hbh]
      rfl
    | cons x a' =>
      cases a' with
      | nil =>
        have hx : isWsB x = false := by
          simpa [Option.all, List.getLast?_singleton] using hal
        rw [List.cons_append, List.nil_append, collapseWs_cons₂,
          if_neg (by simp [hx]), collapseWs_ws_cons c b hbh]
        rfl
      | cons y a'' =>
        rw [List.cons_append, List.cons_append, collapseWs_cons₂,
          collapseWs_cons₂ x y a'']
        by_cases hww : (isWsB x && isWsB y) = true
        · rw [if_pos hww, if_pos hww]
          have hy : isWsB y = true := (Bool.and_eq_true _ _ |>.mp hww).2
          have ha'' : a'' ≠ [] := by
            intro hnil
            subst hnil
            have hyf : isWsB y = false := by
              simpa [List.getLast?_cons_cons, List.getLast?_singleton,
                Option.all] using hal
            rw [hyf] at hy
            exact Bool.false_ne_true hy
          have hala : a''.getLast?.all (fun x0 => !isWsB x0) = true := by
            obtain ⟨z, a3, hza⟩ := List.exists_cons_of_ne_nil ha''
            rw [hza]
            rw [hza] at hal
            simpa only [List.getLast?_cons_cons] using hal
          have hz_in : a''.getLast ha'' ∈ a'' := List.getLast_mem ha''
          have hz_some : a''.getLast? = some (a''.getLast ha'') := by
            simpa [Option.mem_def] using List.getLast_mem_getLast? ha''
          have hz_ws : isWsB (a''.getLast ha'') = false := by
            rw [hz_some] at hala
            simpa [Option.all] using hala
          rw [dropWhile_append_of_mem isWsB a'' (c :: b)
            ⟨a''.getLast ha'', hz_in, hz_ws⟩]
          have hlen : (a''.dropWhile isWsB).length ≤ n := by
            have h1 := length_dropWhile_le' isWsB a''
            simp only [List.length_cons] at ha
            omega
          have hne : a''.dropWhile isWsB ≠ [] := by
            intro h0
            have h2 := mem_dropWhile_of_not isWsB a'' _ hz_in hz_ws
            rw [h0] at h2
            cases h2
          have hdl_last : (a''.dropWhile isWsB).getLast?.all
              (fun x0 => !isWsB x0) = true := by
            obtain ⟨t, ht⟩ := dropWhile_exists_app isWsB a''
            have h3 : a''.getLast? = (a''.dropWhile isWsB).getLast? := by
              conv_lhs => rw [ht]
              exact List.getLast?_append_of_ne_nil t hne
            rw [← h3]
            exact hala
          rw [ih _ hlen c b hdl_last hbh]
          rfl
        · rw [if_neg hww, if_neg hww]
          have hcons : y :: (a'' ++ c :: b) = (y :: a'') ++ c :: b := by
            rw [List.cons_append]
          rw [hcons]
          have hlen2 : (y :: a'').length ≤ n := by
            simp only [List.length_cons] at ha ⊢
            omega
          have hal2 : (y :: a'').getLast?.all (fun x0 => !isWsB x0) = true := by
            simpa only [List.getLast?_cons_cons] using hal
          rw [ih _ hlen2 c b hal2 hbh]
          rfl

/-- Removal of trailing whitespace ignores a left context when the right
part has a non-whitespace character. -/
theorem dropTrailWs_append (w v : List Char)
    (hv : ∃ y ∈ v, isWsB y = false) :
    dropTrailWs (w ++ v) = w ++ dropTrailWs v := by
  have hmem : ∃ y ∈ v.reverse, isWsB y = false := by
    rcases hv with ⟨y, hy, hyw⟩
    exact ⟨y, List.mem_reverse.mpr hy, hyw⟩
  rw [dropTrailWs, List.reverse_append,
    dropWhile_append_of_mem isWsB v.reverse w.reverse hmem,
    List.reverse_append, List.reverse_reverse]
  rfl

/-- Trimming around a kept middle character: the left part only loses its
leading whitespace, the right part only its trailing whitespace. -/
theorem trimWs_append_split (u v : List Char) (c : Char)
    (hu : ∃ x ∈ u, isWsB x = false) (hv : ∃ y ∈ v, isWsB y = false) :
    trimWs (u ++ c :: v) = u.dropWhile isWsB ++ c :: dropTrailWs v := by
  rw [trimWs, dropWhile_append_of_mem isWsB u (c :: v) hu]
  have hsplit : u.dropWhile isWsB ++ c :: v = (u.dropWhile isWsB ++ [c]) ++ v := by
    simp
  rw [hsplit, dropTrailWs_append (u.dropWhile isWsB ++ [c]) v hv,
    List.append_assoc]
  rfl

/-- C10, counterexample: a lone leading whitespace character, although not
adjacent to any other whitespace, is removed by the trim, not preserved. -/
theorem claim10_leading_ws_counterexample :
    normalizeDarija (.str ("\ta")) = "a"
    ∧ '\t' ∈ ("\ta" : String).data
    ∧ '\t' ∉ ("a" : String).data :=
  ⟨by decide, by decide, by decide⟩

/-- C10, amended: a single internal whitespace character, one with a
non-whitespace character immediately before it and after it, is preserved
as is by the whitespace cleanup of line 80: the collapse only rewrites runs
of two or more whitespace characters, and the trim only touches the two
ends. A lone leading or trailing whitespace character is removed by the
trim. -/
theorem claim10_internal_ws_preserved (a b : List Char) (c : Char)
    (_hc : isWsB c = true)
    (ha : a ≠ []) (hb : b ≠ [])
    (hal : a.getLast?.all (fun x => !isWsB x) = true)
    (hbh : b.head?.all (fun y => !isWsB y) = true) :
    cleanupWs (a ++ c :: b) =
      (collapseWs a).dropWhile isWsB ++ c :: dropTrailWs (collapseWs b)
    ∧ c ∈ cleanupWs (a ++ c :: b) := by
  have hsplit := collapseWs_append_split a.length a (Nat.le_refl _) c b hal hbh
  have hza : ∃ x ∈ collapseWs a, isWsB x = false := by
    have hz_in : a.getLast ha ∈ a := List.getLast_mem ha
    have hz_some : a.getLast? = some (a.getLast ha) := by
      simpa [Option.mem_def] using List.getLast_mem_getLast? ha
    have hz_ws : isWsB (a.getLast ha) = false := by
      rw [hz_some] at hal
      simpa [Option.all] using hal
    refine ⟨a.getLast ha, ?_, hz_ws⟩
    rw [collapseWs_eq]
    exact mem_collapse_of_not_ws _ _ _ hz_in hz_ws
  have hzb : ∃ y ∈ collapseWs b, isWsB y = false := by
    obtain ⟨y, b', rfl⟩ := List.exists_cons_of_ne_nil hb
    have hy_ws : isWsB y = false := by
      simpa [Option.all] using hbh
    refine ⟨y, ?_, hy_ws⟩
    rw [collapseWs_eq]
    exact mem_collapse_of_not_ws _ _ _ (List.mem_cons_self _ _) hy_ws
  have heq : cleanupWs (a ++ c :: b) =
      (collapseWs a).dropWhile isWsB ++ c :: dropTrailWs (collapseWs b) := by
    rw [cleanupWs, hsplit]
    exact trimWs_append_split (collapseWs a) (collapseWs b) c hza hzb
  refine ⟨heq, ?_⟩
  rw [heq]
  exact List.mem_append_right _ (List.mem_cons_self _ _)

/-- C10, witness: the lone internal tab of a concrete input survives the
whitespace cleanup as a tab. -/
theorem claim10_internal_ws_preserved_witness :
    '\t' ∈ cleanupWs ['x', '\t', 'y'] :=
  (claim10_internal_ws_preserved ['x'] ['y'] '\t' (by decide) (by decide)
    (by decide) (by decide) (by decide)).2
